import Mathlib

/-!
Verification of blinky.c, a Morse blinker on GPIO pin 16.

Shallow embedding of `src/rgb/c/blinky.c`.  The program has no data besides
its compile-time constants; what it does is a sequence of effects: volatile
stores to three memory-mapped registers and `nop` instructions executed by the
busy-wait loop.  Every C function of the file (all of them return `void`) is
embedded as a function that takes the effects performed so far, in program
order, and returns them extended by its own.

`unsigned int` is 32 bits wide: products and increments are taken modulo
`2 ^ 32`.
-/

namespace Blinky

/-- Number of values of an `unsigned int`. -/
def WORD : Nat := 2 ^ 32

/-- One observable effect: a volatile store of a 32-bit value to an address,
or one execution of `asm volatile("nop")`. -/
inductive Effect where
  | store (addr val : Nat)
  | nop
  deriving DecidableEq, Repr

/-- Effects in program order, oldest first. -/
abbrev Trace := List Effect

/-! ## Constants (lines 5 to 12) -/

/-- Line 5: `#define GPIO_BASE (0xFE000000 + 0x200000)` (unsigned arithmetic). -/
def GPIO_BASE : Nat := (0xFE000000 + 0x200000) % WORD

/-- Line 6. -/
def LONG_PAUSE : Nat := 800

/-- Line 7. -/
def SHORT_PAUSE : Nat := 100

/-- Line 8. -/
def MEDIUM_PAUSE : Nat := 400

/-- Line 10: address held by the pointer `GPIO_FSEL1`. -/
def GPIO_FSEL1 : Nat := (GPIO_BASE + 0x04) % WORD

/-- Line 11: address held by the pointer `GPIO_SET0`. -/
def GPIO_SET0 : Nat := (GPIO_BASE + 0x1C) % WORD

/-- Line 12: address held by the pointer `GPIO_CLR0`. -/
def GPIO_CLR0 : Nat := (GPIO_BASE + 0x28) % WORD

/-- The statement `*p = v;` for a `volatile unsigned *p`: the value is
converted to `unsigned` and stored. -/
def store (addr val : Nat) (t : Trace) : Trace :=
  t ++ [Effect.store addr (val % WORD)]

/-! ## Timing primitive (lines 14 to 22) -/

/-- The `for` loop of lines 15 to 17, entered with counter `i`:
`for (; i < us * cal; i++) asm volatile("nop");`.  The factor written `6` in
the source is the argument `cal`.  The result is the counter at loop exit and
the extended trace. -/
def spin_loop (cal us i : Nat) (t : Trace) : Nat × Trace :=
  if i < (us * cal) % WORD then
    spin_loop cal us ((i + 1) % WORD) (t ++ [Effect.nop])
  else
    (i, t)
termination_by (us * cal) % WORD - i
decreasing_by
  have hb : (us * cal) % WORD < WORD := Nat.mod_lt _ (by decide)
  have hi : (i + 1) % WORD = i + 1 := Nat.mod_eq_of_lt (by omega)
  rw [hi]
  omega

/-- Lines 14 to 18 with the calibration factor as a parameter. -/
def spin_sleep_us_cal (cal us : Nat) (t : Trace) : Trace :=
  (spin_loop cal us 0 t).2

/-- Lines 20 to 22 with the calibration factor as a parameter. -/
def spin_sleep_ms_cal (cal ms : Nat) (t : Trace) : Trace :=
  spin_sleep_us_cal cal ((ms * 1000) % WORD) t

/-- Lines 14 to 18: `spin_sleep_us`, whose factor is the literal `6`. -/
def spin_sleep_us (us : Nat) (t : Trace) : Trace :=
  spin_sleep_us_cal 6 us t

/-- Lines 20 to 22: `spin_sleep_ms` calls `spin_sleep_us(ms * 1000)`. -/
def spin_sleep_ms (ms : Nat) (t : Trace) : Trace :=
  spin_sleep_us ((ms * 1000) % WORD) t

/-! ## Signal encoder (lines 24 to 38) -/

/-- Lines 24 to 28. -/
def dot (t : Trace) : Trace :=
  let t := store GPIO_SET0 (0b1 <<< 16) t
  let t := spin_sleep_ms SHORT_PAUSE t
  store GPIO_CLR0 (0b1 <<< 16) t

/-- Lines 30 to 34. -/
def dash (t : Trace) : Trace :=
  let t := store GPIO_SET0 (0b1 <<< 16) t
  let t := spin_sleep_ms MEDIUM_PAUSE t
  store GPIO_CLR0 (0b1 <<< 16) t

/-- Lines 36 to 38. -/
def space (t : Trace) : Trace :=
  spin_sleep_ms LONG_PAUSE t

/-! ## Message sequencer (lines 40 to 74) -/

/-- Lines 40 to 74, statement by statement. -/
def main (t : Trace) : Trace :=
  let t := store GPIO_FSEL1 (0b1 <<< 18) t
  let t := dot t
  let t := dash t
  let t := dash t
  let t := dash t
  let t := space t
  let t := dot t
  let t := dash t
  let t := space t
  let t := dash t
  let t := dot t
  let t := dash t
  let t := dot t
  let t := space t
  let t := dash t
  let t := dot t
  let t := dash t
  let t := space t
  let t := dot t
  let t := dot t
  let t := space t
  dot t

/-! ## Observers

Nothing below is called by the program; these definitions read a trace. -/

/-- Number of `nop` instructions executed in a trace. -/
def nopCount (t : Trace) : Nat :=
  t.count Effect.nop

/-- Whether an effect is a store to the register at `addr`. -/
def writesTo (addr : Nat) : Effect → Bool
  | Effect.store a _ => decide (a = addr)
  | Effect.nop => false

/-- Length, in loop iterations, of the busy-wait that `spin_sleep_ms(ms)`
performs when the calibration factor is `cal`. -/
def busyWait (cal ms : Nat) : Nat :=
  nopCount (spin_sleep_ms_cal cal ms [])

/-- The three symbol emitters, as a name for the function to call. -/
inductive Symbol where
  | dot
  | dash
  | space
  deriving DecidableEq, Repr

/-- Calling the emitter a symbol names. -/
def emit : Symbol → Trace → Trace
  | Symbol.dot => dot
  | Symbol.dash => dash
  | Symbol.space => space

/-- Calling the emitters of a list of symbols one after the other, in order. -/
def emitAll (syms : List Symbol) (t : Trace) : Trace :=
  syms.foldl (fun acc s => emit s acc) t

/-- The effects of one emitter call. -/
def block (s : Symbol) : Trace :=
  emit s []

/-- The pause constant an emitter passes to `spin_sleep_ms`. -/
def pauseOf : Symbol → Nat
  | Symbol.dot => SHORT_PAUSE
  | Symbol.dash => MEDIUM_PAUSE
  | Symbol.space => LONG_PAUSE

/-- Splitting a symbol sequence into groups at each `space`. -/
def splitAtSpaces : List Symbol → List (List Symbol)
  | [] => [[]]
  | Symbol.space :: rest => [] :: splitAtSpaces rest
  | s :: rest =>
    match splitAtSpaces rest with
    | [] => [[s]]
    | g :: gs => (s :: g) :: gs

/-- International Morse code of the lower-case Latin letters
(dot = short mark, dash = long mark). -/
def morse : Char → List Symbol
  | 'a' => [.dot, .dash]
  | 'b' => [.dash, .dot, .dot, .dot]
  | 'c' => [.dash, .dot, .dash, .dot]
  | 'd' => [.dash, .dot, .dot]
  | 'e' => [.dot]
  | 'f' => [.dot, .dot, .dash, .dot]
  | 'g' => [.dash, .dash, .dot]
  | 'h' => [.dot, .dot, .dot, .dot]
  | 'i' => [.dot, .dot]
  | 'j' => [.dot, .dash, .dash, .dash]
  | 'k' => [.dash, .dot, .dash]
  | 'l' => [.dot, .dash, .dot, .dot]
  | 'm' => [.dash, .dash]
  | 'n' => [.dash, .dot]
  | 'o' => [.dash, .dash, .dash]
  | 'p' => [.dot, .dash, .dash, .dot]
  | 'q' => [.dash, .dash, .dot, .dash]
  | 'r' => [.dot, .dash, .dot]
  | 's' => [.dot, .dot, .dot]
  | 't' => [.dash]
  | 'u' => [.dot, .dot, .dash]
  | 'v' => [.dot, .dot, .dot, .dash]
  | 'w' => [.dot, .dash, .dash]
  | 'x' => [.dash, .dot, .dot, .dash]
  | 'y' => [.dash, .dot, .dash, .dash]
  | 'z' => [.dash, .dash, .dot, .dot]
  | _ => []

/-- The letters of the message named in the comment of line 42. -/
def jackie : List Char := ['j', 'a', 'c', 'k', 'i', 'e']

/-- Modelled from the spec: the behaviour of the GPIO hardware is not part of
the source; this is the test double of the spec for one pin.  A write of a
mask to the set register drives the masked pins high, a write of a mask to
the clear register drives the masked pins low, nothing else changes a level. -/
def levelStep (pin : Nat) (level : Bool) : Effect → Bool
  | Effect.store addr val =>
    if addr = GPIO_SET0 then level || val.testBit pin
    else if addr = GPIO_CLR0 then level && !val.testBit pin
    else level
  | Effect.nop => level

/-- Modelled from the spec: the test double for all pins; the levels after a
trace has been replayed on the levels `p`. -/
def pinLevels (p : Nat → Bool) (t : Trace) : Nat → Bool :=
  fun n => t.foldl (levelStep n) (p n)

/-- Modelled from the spec: a recorder of the waveform of one pin, standing
in for the hardware.  Time is counted in executed `nop`s. -/
structure Recorder where
  /-- Level of the pin. -/
  level : Bool
  /-- Busy-wait steps since the pin last went low (or since the start). -/
  gap : Nat
  /-- Busy-wait steps since the pin last went high. -/
  width : Nat
  /-- Completed pulses, oldest first: gap before the pulse and its width. -/
  pulses : List (Nat × Nat)
  deriving DecidableEq, Repr

/-- Modelled from the spec: one effect seen by the recorder.  A rising edge
starts a pulse, a falling edge completes it. -/
def Recorder.step (pin : Nat) (r : Recorder) (e : Effect) : Recorder :=
  match e with
  | Effect.nop =>
    if r.level then { r with width := r.width + 1 } else { r with gap := r.gap + 1 }
  | Effect.store addr val =>
    let l := levelStep pin r.level (Effect.store addr val)
    if r.level = false ∧ l = true then
      { r with level := true, width := 0 }
    else if r.level = true ∧ l = false then
      { level := false, gap := 0, width := 0, pulses := r.pulses ++ [(r.gap, r.width)] }
    else r

/-- Modelled from the spec: the recording of a trace, the pin starting low. -/
def record (pin : Nat) (t : Trace) : Recorder :=
  t.foldl (Recorder.step pin) { level := false, gap := 0, width := 0, pulses := [] }

/-! ## Closed form of the busy-wait loop -/

/-- The busy-wait loop entered with counter `i` at most the bound exits with
the counter equal to the bound, having executed one `nop` per step. -/
theorem spin_loop_closed (cal us : Nat) :
    ∀ (k i : Nat) (t : Trace), i + k = (us * cal) % WORD →
      spin_loop cal us i t = ((us * cal) % WORD, t ++ List.replicate k Effect.nop) := by
  intro k
  induction k with
  | zero =>
    intro i t h
    rw [spin_loop]
    have : ¬ i < (us * cal) % WORD := by omega
    simp [this]
    omega
  | succ k ih =>
    intro i t h
    have hb : (us * cal) % WORD < WORD := Nat.mod_lt _ (by decide)
    have hlt : i < (us * cal) % WORD := by omega
    have hi : (i + 1) % WORD = i + 1 := Nat.mod_eq_of_lt (by omega)
    rw [spin_loop, if_pos hlt, hi, ih (i + 1) _ (by omega)]
    simp [List.replicate_succ]

theorem spin_sleep_us_cal_closed (cal us : Nat) (t : Trace) :
    spin_sleep_us_cal cal us t = t ++ List.replicate ((us * cal) % WORD) Effect.nop := by
  unfold spin_sleep_us_cal
  rw [spin_loop_closed cal us ((us * cal) % WORD) 0 t (by omega)]

theorem spin_sleep_us_closed (us : Nat) (t : Trace) :
    spin_sleep_us us t = t ++ List.replicate ((us * 6) % WORD) Effect.nop := by
  unfold spin_sleep_us
  exact spin_sleep_us_cal_closed 6 us t

theorem spin_sleep_ms_closed (ms : Nat) (t : Trace) :
    spin_sleep_ms ms t
      = t ++ List.replicate ((((ms * 1000) % WORD) * 6) % WORD) Effect.nop := by
  unfold spin_sleep_ms
  exact spin_sleep_us_closed _ t

/-! ## Every function appends its effects to the trace -/

theorem WORD_eq : WORD = 4294967296 := by decide

theorem pause_nops (ms : Nat) (h : ms * 1000 * 6 < WORD) :
    (((ms * 1000) % WORD) * 6) % WORD = ms * 1000 * 6 := by
  rw [WORD_eq] at h ⊢
  omega

theorem store_eq (addr val : Nat) (t : Trace) :
    store addr val t = t ++ [Effect.store addr (val % WORD)] := rfl

theorem dot_closed (t : Trace) :
    dot t = t ++ (Effect.store GPIO_SET0 (1 <<< 16)
      :: (List.replicate (SHORT_PAUSE * 1000 * 6) Effect.nop
        ++ [Effect.store GPIO_CLR0 (1 <<< 16)])) := by
  have h : (((SHORT_PAUSE * 1000) % WORD) * 6) % WORD = SHORT_PAUSE * 1000 * 6 :=
    pause_nops _ (by decide)
  have hv : (0b1 <<< 16) % WORD = 1 <<< 16 := by decide
  simp only [dot, store_eq, spin_sleep_ms_closed, h, hv, List.append_assoc,
    List.singleton_append, List.cons_append, List.nil_append]

theorem dash_closed (t : Trace) :
    dash t = t ++ (Effect.store GPIO_SET0 (1 <<< 16)
      :: (List.replicate (MEDIUM_PAUSE * 1000 * 6) Effect.nop
        ++ [Effect.store GPIO_CLR0 (1 <<< 16)])) := by
  have h : (((MEDIUM_PAUSE * 1000) % WORD) * 6) % WORD = MEDIUM_PAUSE * 1000 * 6 :=
    pause_nops _ (by decide)
  have hv : (0b1 <<< 16) % WORD = 1 <<< 16 := by decide
  simp only [dash, store_eq, spin_sleep_ms_closed, h, hv, List.append_assoc,
    List.singleton_append, List.cons_append, List.nil_append]

theorem space_closed (t : Trace) :
    space t = t ++ List.replicate (LONG_PAUSE * 1000 * 6) Effect.nop := by
  have h : (((LONG_PAUSE * 1000) % WORD) * 6) % WORD = LONG_PAUSE * 1000 * 6 :=
    pause_nops _ (by decide)
  simp only [space, spin_sleep_ms_closed, h]

theorem block_dot :
    block Symbol.dot = Effect.store GPIO_SET0 (1 <<< 16)
      :: (List.replicate (SHORT_PAUSE * 1000 * 6) Effect.nop
        ++ [Effect.store GPIO_CLR0 (1 <<< 16)]) := by
  rw [block, emit, dot_closed, List.nil_append]

theorem block_dash :
    block Symbol.dash = Effect.store GPIO_SET0 (1 <<< 16)
      :: (List.replicate (MEDIUM_PAUSE * 1000 * 6) Effect.nop
        ++ [Effect.store GPIO_CLR0 (1 <<< 16)]) := by
  rw [block, emit, dash_closed, List.nil_append]

theorem block_space :
    block Symbol.space = List.replicate (LONG_PAUSE * 1000 * 6) Effect.nop := by
  rw [block, emit, space_closed, List.nil_append]

/-- The effects of an emitter call that makes a pulse. -/
theorem block_mark (s : Symbol) (hs : s ≠ Symbol.space) :
    block s = Effect.store GPIO_SET0 (1 <<< 16)
      :: (List.replicate (pauseOf s * 1000 * 6) Effect.nop
        ++ [Effect.store GPIO_CLR0 (1 <<< 16)]) := by
  cases s with
  | space => exact absurd rfl hs
  | dot => rw [block_dot, pauseOf]
  | dash => rw [block_dash, pauseOf]

theorem emit_eq (s : Symbol) (t : Trace) : emit s t = t ++ block s := by
  cases s
  · rw [block_dot, emit, dot_closed]
  · rw [block_dash, emit, dash_closed]
  · rw [block_space, emit, space_closed]

theorem emitAll_nil (t : Trace) : emitAll [] t = t := by
  unfold emitAll
  exact List.foldl_nil

theorem emitAll_cons (s : Symbol) (rest : List Symbol) (t : Trace) :
    emitAll (s :: rest) t = emitAll rest (emit s t) := by
  unfold emitAll
  exact List.foldl_cons _ _

theorem emitAll_eq (syms : List Symbol) :
    ∀ t : Trace, emitAll syms t = t ++ (syms.map block).flatten := by
  induction syms with
  | nil => intro t; simp [emitAll_nil]
  | cons s rest ih =>
    intro t
    rw [emitAll_cons, ih, emit_eq]
    simp

/-- The symbols whose emitters `main` calls after the pin configuration,
as read off lines 43 to 73. -/
theorem main_eq_emitAll (t : Trace) :
    main t = emitAll
      [.dot, .dash, .dash, .dash, .space, .dot, .dash, .space,
       .dash, .dot, .dash, .dot, .space, .dash, .dot, .dash, .space,
       .dot, .dot, .space, .dot]
      (store GPIO_FSEL1 (0b1 <<< 18) t) := by
  rw [main]
  repeat rw [emitAll_cons]
  rw [emitAll_nil]
  simp only [emit]

/-! ## The trace determines the sequence of emitter calls -/

theorem nops_cons_inj (c : Effect) (hc : c ≠ Effect.nop) :
    ∀ (n m : Nat) (x y : Trace),
      List.replicate n Effect.nop ++ c :: x = List.replicate m Effect.nop ++ c :: y →
        n = m ∧ x = y := by
  intro n
  induction n with
  | zero =>
    intro m x y h
    cases m with
    | zero => simpa using h
    | succ m =>
      rw [List.replicate_succ] at h
      simp only [List.replicate_zero, List.nil_append, List.cons_append, List.cons.injEq] at h
      exact absurd h.1 hc
  | succ n ih =>
    intro m x y h
    cases m with
    | zero =>
      rw [List.replicate_succ] at h
      simp only [List.replicate_zero, List.nil_append, List.cons_append, List.cons.injEq] at h
      exact absurd h.1.symm hc
    | succ m =>
      rw [List.replicate_succ, List.replicate_succ] at h
      simp only [List.cons_append, List.cons.injEq, true_and] at h
      obtain ⟨h1, h2⟩ := ih m x y h
      exact ⟨by omega, h2⟩

theorem flatten_cons_mark (s : Symbol) (hs : s ≠ Symbol.space) (rest : List Symbol) :
    ((s :: rest).map block).flatten
      = Effect.store GPIO_SET0 (1 <<< 16)
        :: (List.replicate (pauseOf s * 1000 * 6) Effect.nop
          ++ Effect.store GPIO_CLR0 (1 <<< 16) :: (rest.map block).flatten) := by
  rw [List.map_cons, List.flatten_cons, block_mark s hs, List.cons_append, List.append_assoc,
    List.singleton_append]

theorem flatten_cons_space (rest : List Symbol) :
    ((Symbol.space :: rest).map block).flatten
      = Effect.nop :: (List.replicate (LONG_PAUSE * 1000 * 6 - 1) Effect.nop
          ++ (rest.map block).flatten) := by
  have h : LONG_PAUSE * 1000 * 6 = (LONG_PAUSE * 1000 * 6 - 1) + 1 := by decide
  rw [List.map_cons, List.flatten_cons, block_space]
  conv_lhs => rw [h, List.replicate_succ]
  rw [List.cons_append]

theorem blocks_inj :
    ∀ s1 s2 : List Symbol, (s1.map block).flatten = (s2.map block).flatten → s1 = s2 := by
  intro s1
  induction s1 with
  | nil =>
    intro s2 h
    cases s2 with
    | nil => rfl
    | cons b r2 =>
      exfalso
      cases b
      · rw [flatten_cons_mark _ (by decide)] at h; simp at h
      · rw [flatten_cons_mark _ (by decide)] at h; simp at h
      · rw [flatten_cons_space] at h; simp at h
  | cons a r1 ih =>
    intro s2 h
    cases s2 with
    | nil =>
      exfalso
      cases a
      · rw [flatten_cons_mark _ (by decide)] at h; simp at h
      · rw [flatten_cons_mark _ (by decide)] at h; simp at h
      · rw [flatten_cons_space] at h; simp at h
    | cons b r2 =>
      by_cases ha : a = Symbol.space
      · subst ha
        by_cases hb : b = Symbol.space
        · subst hb
          rw [flatten_cons_space, flatten_cons_space] at h
          simp only [List.cons.injEq, true_and] at h
          rw [ih r2 (List.append_cancel_left h)]
        · rw [flatten_cons_space, flatten_cons_mark b hb] at h
          simp only [List.cons.injEq] at h
          exact absurd h.1 (by simp)
      · by_cases hb : b = Symbol.space
        · subst hb
          rw [flatten_cons_space, flatten_cons_mark a ha] at h
          simp only [List.cons.injEq] at h
          exact absurd h.1 (by simp)
        · rw [flatten_cons_mark a ha, flatten_cons_mark b hb] at h
          simp only [List.cons.injEq, true_and] at h
          obtain ⟨h1, h2⟩ := nops_cons_inj _ (by simp) _ _ _ _ h
          have hab : a = b := by
            cases a <;> cases b
            · rfl
            · exact absurd h1 (by decide)
            · exact absurd rfl hb
            · exact absurd h1 (by decide)
            · rfl
            · exact absurd rfl hb
            · exact absurd rfl ha
            · exact absurd rfl ha
            · rfl
          rw [hab, ih r2 h2]

theorem emitAll_inj (s1 s2 : List Symbol) (t : Trace)
    (h : emitAll s1 t = emitAll s2 t) : s1 = s2 := by
  rw [emitAll_eq, emitAll_eq] at h
  exact blocks_inj s1 s2 (List.append_cancel_left h)

/-! ## The test double on the traces of the emitters -/

theorem GPIO_SET0_ne_CLR0 : GPIO_SET0 ≠ GPIO_CLR0 := by decide

theorem testBit_mask (n : Nat) : Nat.testBit (1 <<< 16) n = decide (n = 16) := by
  rw [Nat.one_shiftLeft, Nat.testBit_two_pow]
  by_cases h : n = 16
  · subst h; rfl
  · have h2 : ¬ (16 = n) := fun e => h e.symm
    simp [h, h2]

theorem levelStep_set (n : Nat) (l : Bool) :
    levelStep n l (Effect.store GPIO_SET0 (1 <<< 16)) = (l || decide (n = 16)) := by
  simp only [levelStep, if_true, testBit_mask]

theorem levelStep_clr (n : Nat) (l : Bool) :
    levelStep n l (Effect.store GPIO_CLR0 (1 <<< 16)) = (l && !decide (n = 16)) := by
  have h : ¬ GPIO_CLR0 = GPIO_SET0 := fun e => GPIO_SET0_ne_CLR0 e.symm
  simp only [levelStep, if_neg h, if_true, testBit_mask]

theorem foldl_levelStep_nops (n : Nat) :
    ∀ (k : Nat) (l : Bool), (List.replicate k Effect.nop).foldl (levelStep n) l = l := by
  intro k
  induction k with
  | zero => intro l; rfl
  | succ k ih =>
    intro l
    rw [List.replicate_succ, List.foldl_cons]
    exact ih _

theorem pinLevels_append (p : Nat → Bool) (t u : Trace) (n : Nat) :
    pinLevels p (t ++ u) n = pinLevels (pinLevels p t) u n := by
  unfold pinLevels
  rw [List.foldl_append]

theorem pinLevels_nops (p : Nat → Bool) (k n : Nat) :
    pinLevels p (List.replicate k Effect.nop) n = p n := by
  unfold pinLevels
  exact foldl_levelStep_nops n k (p n)

theorem pinLevels_pulse (p : Nat → Bool) (k n : Nat) :
    pinLevels p (Effect.store GPIO_SET0 (1 <<< 16)
      :: (List.replicate k Effect.nop ++ [Effect.store GPIO_CLR0 (1 <<< 16)])) n
      = ((p n || decide (n = 16)) && !decide (n = 16)) := by
  unfold pinLevels
  rw [List.foldl_cons, List.foldl_append, foldl_levelStep_nops, List.foldl_cons,
    List.foldl_nil, levelStep_set, levelStep_clr]

/-! ## The recorder on the traces of the emitters -/

theorem recorder_nops (pin : Nat) :
    ∀ (k : Nat) (r : Recorder),
      (List.replicate k Effect.nop).foldl (Recorder.step pin) r
        = if r.level then { r with width := r.width + k } else { r with gap := r.gap + k } := by
  intro k
  induction k with
  | zero => intro r; cases r; simp
  | succ k ih =>
    intro r
    rw [List.replicate_succ, List.foldl_cons, ih]
    cases r with
    | mk level gap width pulses =>
      cases level <;> simp [Recorder.step] <;> omega

theorem recorder_set (gap width : Nat) (pulses : List (Nat × Nat)) :
    Recorder.step 16 { level := false, gap := gap, width := width, pulses := pulses }
        (Effect.store GPIO_SET0 (1 <<< 16))
      = { level := true, gap := gap, width := 0, pulses := pulses } := by
  simp only [Recorder.step, levelStep_set]
  simp

theorem recorder_clr (gap width : Nat) (pulses : List (Nat × Nat)) :
    Recorder.step 16 { level := true, gap := gap, width := width, pulses := pulses }
        (Effect.store GPIO_CLR0 (1 <<< 16))
      = { level := false, gap := 0, width := 0, pulses := pulses ++ [(gap, width)] } := by
  simp only [Recorder.step, levelStep_clr]
  simp

theorem recorder_pulse (k : Nat) (r : Recorder) (h : r.level = false) :
    (Effect.store GPIO_SET0 (1 <<< 16)
      :: (List.replicate k Effect.nop ++ [Effect.store GPIO_CLR0 (1 <<< 16)])).foldl
        (Recorder.step 16) r
      = { level := false, gap := 0, width := 0, pulses := r.pulses ++ [(r.gap, k)] } := by
  cases r with
  | mk level gap width pulses =>
    simp only at h
    subst h
    rw [List.foldl_cons, List.foldl_append, recorder_set, recorder_nops, List.foldl_cons,
      List.foldl_nil]
    simp only [if_true, Nat.zero_add]
    rw [recorder_clr]

theorem recorder_marks :
    ∀ (syms : List Symbol) (r : Recorder), (∀ s ∈ syms, s ≠ Symbol.space) →
      r.level = false → r.gap = 0 → r.width = 0 →
      ((syms.map block).flatten).foldl (Recorder.step 16) r
        = { level := false, gap := 0, width := 0,
            pulses := r.pulses ++ syms.map (fun s => (0, pauseOf s * 1000 * 6)) } := by
  intro syms
  induction syms with
  | nil =>
    intro r _ h1 h2 h3
    cases r
    simp only at h1 h2 h3
    subst h1 h2 h3
    simp
  | cons s rest ih =>
    intro r hs h1 h2 h3
    have hs1 : s ≠ Symbol.space := hs s (List.mem_cons_self _ _)
    have hs2 : ∀ x ∈ rest, x ≠ Symbol.space := fun x hx => hs x (List.mem_cons_of_mem _ hx)
    rw [List.map_cons, List.flatten_cons, List.foldl_append, block_mark s hs1,
      recorder_pulse _ r h1, ih _ hs2 rfl rfl rfl, h2]
    simp

/-! ## Counting -/

theorem nopCount_nops (k : Nat) : nopCount (List.replicate k Effect.nop) = k := by
  unfold nopCount
  exact List.count_replicate_self _ _

theorem busyWait_eq (cal ms : Nat) : busyWait cal ms = (((ms * 1000) % WORD) * cal) % WORD := by
  unfold busyWait spin_sleep_ms_cal
  rw [spin_sleep_us_cal_closed, List.nil_append, nopCount_nops]

theorem spin_sleep_ms_nil (ms : Nat) (h : ms * 1000 * 6 < WORD) :
    spin_sleep_ms ms [] = List.replicate (ms * 1000 * 6) Effect.nop := by
  rw [spin_sleep_ms_closed, pause_nops ms h, List.nil_append]

/-! ## Timing primitive -/

/-- C10: for every argument, `spin_sleep_us` returns: its loop, started at
counter 0, exits with the counter equal to the bound `(us * 6) mod 2^32`,
having executed exactly that many `nop`s; after `k` iterations the counter is
`k` (incrementing it never wraps below the bound); the trace gains nothing but
`nop`s. -/
theorem spin_sleep_us_terminates_exact (us : Nat) (t : Trace) :
    spin_loop 6 us 0 t
        = ((us * 6) % WORD, t ++ List.replicate ((us * 6) % WORD) Effect.nop)
      ∧ spin_sleep_us us t = t ++ List.replicate ((us * 6) % WORD) Effect.nop
      ∧ nopCount (spin_sleep_us us []) = (us * 6) % WORD
      ∧ (∀ k, k ≤ (us * 6) % WORD →
          spin_loop 6 us 0 t = spin_loop 6 us k (t ++ List.replicate k Effect.nop))
      ∧ (∀ k, k < (us * 6) % WORD → (k + 1) % WORD = k + 1)
      ∧ (∀ e ∈ spin_sleep_us us [], e = Effect.nop)
      ∧ (∀ a, (spin_sleep_us us []).countP (writesTo a) = 0) := by
  have hclosed := spin_loop_closed 6 us ((us * 6) % WORD) 0 t (by omega)
  have hnil : spin_sleep_us us [] = List.replicate ((us * 6) % WORD) Effect.nop := by
    rw [spin_sleep_us_closed, List.nil_append]
  refine ⟨hclosed, spin_sleep_us_closed us t, ?_, ?_, ?_, ?_, ?_⟩
  · rw [hnil, nopCount_nops]
  · intro k hk
    rw [hclosed, spin_loop_closed 6 us ((us * 6) % WORD - k) k _ (by omega),
      List.append_assoc, ← List.replicate_add]
    congr 3
    omega
  · intro k hk
    have hb : (us * 6) % WORD < WORD := Nat.mod_lt _ (by decide)
    exact Nat.mod_eq_of_lt (by omega)
  · intro e he
    rw [hnil] at he
    exact List.eq_of_mem_replicate he
  · intro a
    rw [hnil, List.countP_eq_zero]
    intro e he
    rw [List.eq_of_mem_replicate he]
    simp [writesTo]

/-- C5, counterexample: 715828 ms is a 32-bit value, yet `spin_sleep_ms`
executes 704 iterations for it, not 715828 * 1000 * 6: the product
`us * 6` wraps around. -/
theorem spin_sleep_ms_wraps :
    715828 < WORD ∧ nopCount (spin_sleep_ms 715828 []) = 704
      ∧ nopCount (spin_sleep_ms 715828 []) ≠ 715828 * 1000 * 6 := by
  have h : nopCount (spin_sleep_ms 715828 []) = 704 := by
    rw [spin_sleep_ms_closed, List.nil_append, nopCount_nops]
    decide
  refine ⟨by decide, h, ?_⟩
  rw [h]
  decide

/-- C5, amended: for every duration `d` in milliseconds with
`d * 1000 * 6 < 2^32`, `spin_sleep_ms d` is `spin_sleep_us` called with
`d * 1000` and busy-waits for exactly `d * 1000 * 6` iterations; the
microsecond variant always turns its argument into the iteration count
`(us * 6) mod 2^32`. -/
theorem spin_sleep_ms_exact (d : Nat) (t : Trace) (h : d * 1000 * 6 < WORD) :
    spin_sleep_ms d t = spin_sleep_us (d * 1000) t
      ∧ spin_sleep_ms d t = t ++ List.replicate (d * 1000 * 6) Effect.nop
      ∧ nopCount (spin_sleep_ms d []) = d * 1000 * 6
      ∧ (∀ us, spin_sleep_us us t = t ++ List.replicate ((us * 6) % WORD) Effect.nop) := by
  have hd : (d * 1000) % WORD = d * 1000 := Nat.mod_eq_of_lt (by omega)
  refine ⟨?_, ?_, ?_, fun us => spin_sleep_us_closed us t⟩
  · unfold spin_sleep_ms
    rw [hd]
  · rw [spin_sleep_ms_closed, pause_nops d h]
  · rw [spin_sleep_ms_nil d h, nopCount_nops]

/-- C5, amended, at 100 ms. -/
theorem spin_sleep_ms_exact_witness :
    100 * 1000 * 6 < WORD ∧ nopCount (spin_sleep_ms 100 []) = 100 * 1000 * 6 :=
  ⟨by decide, (spin_sleep_ms_exact 100 [] (by decide)).2.2.1⟩

/-- C6, counterexample: with the calibration factor 5369 the busy-wait of
`space` (800 ms) is shorter than the one of `dash` (400 ms), because
`800000 * 5369` wraps around modulo `2^32`; with the factor 0 the busy-wait
of `dot` is 0. -/
theorem busyWait_order_fails :
    busyWait 5369 LONG_PAUSE = 232704 ∧ busyWait 5369 MEDIUM_PAUSE = 2147600000
      ∧ ¬ (busyWait 5369 LONG_PAUSE > busyWait 5369 MEDIUM_PAUSE)
      ∧ busyWait 0 SHORT_PAUSE = 0 ∧ ¬ (busyWait 0 SHORT_PAUSE > 0) := by
  have h1 : busyWait 5369 LONG_PAUSE = 232704 := by rw [busyWait_eq]; decide
  have h2 : busyWait 5369 MEDIUM_PAUSE = 2147600000 := by rw [busyWait_eq]; decide
  have h3 : busyWait 0 SHORT_PAUSE = 0 := by rw [busyWait_eq]; decide
  refine ⟨h1, h2, ?_, h3, ?_⟩
  · rw [h1, h2]
    decide
  · rw [h3]
    decide

/-- C6, amended: for every calibration factor `cal` with `0 < cal` and
`800 * 1000 * cal < 2^32`, the busy-wait of dash is longer than the one of
dot, the one of dot is positive, the one of space is longer than the one of
dash, dash is exactly 4 times dot and space exactly 2 times dash, 8 times dot;
the busy-waits of `dot`, `dash` and `space` in the code are the ones for the
factor 6. -/
theorem busyWait_order (cal : Nat) (h0 : 0 < cal) (h : LONG_PAUSE * 1000 * cal < WORD) :
    busyWait cal MEDIUM_PAUSE > busyWait cal SHORT_PAUSE
      ∧ busyWait cal SHORT_PAUSE > 0
      ∧ busyWait cal LONG_PAUSE > busyWait cal MEDIUM_PAUSE
      ∧ busyWait cal MEDIUM_PAUSE = 4 * busyWait cal SHORT_PAUSE
      ∧ busyWait cal LONG_PAUSE = 2 * busyWait cal MEDIUM_PAUSE
      ∧ busyWait cal LONG_PAUSE = 8 * busyWait cal SHORT_PAUSE
      ∧ nopCount (dot []) = busyWait 6 SHORT_PAUSE
      ∧ nopCount (dash []) = busyWait 6 MEDIUM_PAUSE
      ∧ nopCount (space []) = busyWait 6 LONG_PAUSE := by
  have hs : busyWait cal SHORT_PAUSE = 100000 * cal := by
    rw [busyWait_eq]
    simp only [SHORT_PAUSE, LONG_PAUSE, WORD_eq] at h ⊢
    omega
  have hm : busyWait cal MEDIUM_PAUSE = 400000 * cal := by
    rw [busyWait_eq]
    simp only [MEDIUM_PAUSE, LONG_PAUSE, WORD_eq] at h ⊢
    omega
  have hl : busyWait cal LONG_PAUSE = 800000 * cal := by
    rw [busyWait_eq]
    simp only [LONG_PAUSE, WORD_eq] at h ⊢
    omega
  have hcount : ∀ (a b : Effect) (k : Nat), a ≠ Effect.nop → b ≠ Effect.nop →
      nopCount (a :: (List.replicate k Effect.nop ++ [b])) = k := by
    intro a b k ha hb
    unfold nopCount
    rw [List.count_cons_of_ne (Ne.symm ha), List.count_append, List.count_replicate_self,
      List.count_cons_of_ne (Ne.symm hb), List.count_nil]
    rfl
  refine ⟨by omega, by omega, by omega, by omega, by omega, by omega, ?_, ?_, ?_⟩
  · rw [dot_closed, List.nil_append, hcount _ _ _ (by simp) (by simp), busyWait_eq]
    decide
  · rw [dash_closed, List.nil_append, hcount _ _ _ (by simp) (by simp), busyWait_eq]
    decide
  · rw [space_closed, List.nil_append, nopCount_nops, busyWait_eq]
    decide

/-- C6, amended, at the factor 6 of the code. -/
theorem busyWait_order_witness :
    busyWait 6 MEDIUM_PAUSE > busyWait 6 SHORT_PAUSE
      ∧ busyWait 6 SHORT_PAUSE > 0
      ∧ busyWait 6 LONG_PAUSE > busyWait 6 MEDIUM_PAUSE
      ∧ busyWait 6 MEDIUM_PAUSE = 4 * busyWait 6 SHORT_PAUSE
      ∧ busyWait 6 LONG_PAUSE = 2 * busyWait 6 MEDIUM_PAUSE
      ∧ busyWait 6 LONG_PAUSE = 8 * busyWait 6 SHORT_PAUSE
      ∧ nopCount (dot []) = busyWait 6 SHORT_PAUSE
      ∧ nopCount (dash []) = busyWait 6 MEDIUM_PAUSE
      ∧ nopCount (space []) = busyWait 6 LONG_PAUSE :=
  busyWait_order 6 (by decide) (by decide)

/-! ## Signal encoder -/

/-- C1: `dot` extends the trace by exactly a store of `1 << 16` to the set
register at `GPIO_BASE + 0x1C`, the busy-wait of `spin_sleep_ms(100)` and a
store of `1 << 16` to the clear register at `GPIO_BASE + 0x28`, in this order;
`dash` does the same with the busy-wait of `spin_sleep_ms(400)`. -/
theorem dot_dash_effects (t : Trace) :
    dot t = t ++ ([Effect.store (GPIO_BASE + 0x1C) (1 <<< 16)]
        ++ spin_sleep_ms SHORT_PAUSE []
        ++ [Effect.store (GPIO_BASE + 0x28) (1 <<< 16)])
      ∧ dash t = t ++ ([Effect.store (GPIO_BASE + 0x1C) (1 <<< 16)]
        ++ spin_sleep_ms MEDIUM_PAUSE []
        ++ [Effect.store (GPIO_BASE + 0x28) (1 <<< 16)])
      ∧ SHORT_PAUSE = 100 ∧ MEDIUM_PAUSE = 400
      ∧ spin_sleep_ms SHORT_PAUSE [] = List.replicate (100 * 1000 * 6) Effect.nop
      ∧ spin_sleep_ms MEDIUM_PAUSE [] = List.replicate (400 * 1000 * 6) Effect.nop
      ∧ ∀ n, Nat.testBit (1 <<< 16) n = decide (n = 16) := by
  have hset : GPIO_BASE + 0x1C = GPIO_SET0 := by decide
  have hclr : GPIO_BASE + 0x28 = GPIO_CLR0 := by decide
  have hs := spin_sleep_ms_nil SHORT_PAUSE (by decide)
  have hm := spin_sleep_ms_nil MEDIUM_PAUSE (by decide)
  refine ⟨?_, ?_, rfl, rfl, hs, hm, testBit_mask⟩
  · rw [dot_closed, hset, hclr, hs, List.append_assoc, List.singleton_append]
  · rw [dash_closed, hset, hclr, hm, List.append_assoc, List.singleton_append]

/-- C2: `space` extends the trace by the busy-wait of `spin_sleep_ms(800)` and
nothing else: 800 * 1000 * 6 `nop`s, no store to any register, so that the
level of every pin after `space` is the level before it. -/
theorem space_effects (t : Trace) :
    space t = t ++ spin_sleep_ms LONG_PAUSE []
      ∧ LONG_PAUSE = 800
      ∧ space t = t ++ List.replicate (800 * 1000 * 6) Effect.nop
      ∧ (∀ e ∈ space [], e = Effect.nop)
      ∧ (∀ a, (space []).countP (writesTo a) = 0)
      ∧ nopCount (space []) = 800 * 1000 * 6
      ∧ ∀ (p : Nat → Bool) (n : Nat), pinLevels p (space t) n = pinLevels p t n := by
  have hl := spin_sleep_ms_nil LONG_PAUSE (by decide)
  have hnil : space [] = List.replicate (800 * 1000 * 6) Effect.nop := by
    rw [space_closed, List.nil_append]
    rfl
  refine ⟨?_, rfl, space_closed t, ?_, ?_, ?_, ?_⟩
  · rw [space_closed, hl]
  · intro e he
    rw [hnil] at he
    exact List.eq_of_mem_replicate he
  · intro a
    rw [hnil, List.countP_eq_zero]
    intro e he
    rw [List.eq_of_mem_replicate he]
    simp [writesTo]
  · rw [hnil, nopCount_nops]
  · intro p n
    rw [space_closed, pinLevels_append, pinLevels_nops]

/-- C7: whatever the pin levels before the call, after `dot` or `dash` pin 16
is low and every other pin has the level it had before; every store of these
two functions is to the set or clear register and has the mask `1 << 16`,
whose only bit is bit 16. -/
theorem pulse_leaves_pin_low (p : Nat → Bool) (t : Trace) :
    pinLevels p (dot t) 16 = false
      ∧ (∀ n, n ≠ 16 → pinLevels p (dot t) n = pinLevels p t n)
      ∧ pinLevels p (dash t) 16 = false
      ∧ (∀ n, n ≠ 16 → pinLevels p (dash t) n = pinLevels p t n)
      ∧ (∀ a v, Effect.store a v ∈ dot [] ∨ Effect.store a v ∈ dash [] →
          (a = GPIO_SET0 ∨ a = GPIO_CLR0) ∧ v = 1 <<< 16)
      ∧ ∀ n, Nat.testBit (1 <<< 16) n = decide (n = 16) := by
  have hmem : ∀ (k : Nat) (a v : Nat),
      Effect.store a v ∈ Effect.store GPIO_SET0 (1 <<< 16)
        :: (List.replicate k Effect.nop ++ [Effect.store GPIO_CLR0 (1 <<< 16)]) →
      (a = GPIO_SET0 ∨ a = GPIO_CLR0) ∧ v = 1 <<< 16 := by
    intro k a v hm
    rw [List.mem_cons, List.mem_append, List.mem_singleton] at hm
    rcases hm with hm | hm | hm
    · injection hm with h1 h2
      exact ⟨Or.inl h1, h2⟩
    · exact absurd (List.eq_of_mem_replicate hm) (by simp)
    · injection hm with h1 h2
      exact ⟨Or.inr h1, h2⟩
  refine ⟨?_, ?_, ?_, ?_, ?_, testBit_mask⟩
  · rw [dot_closed, pinLevels_append, pinLevels_pulse]
    simp
  · intro n hn
    rw [dot_closed, pinLevels_append, pinLevels_pulse]
    simp [hn]
  · rw [dash_closed, pinLevels_append, pinLevels_pulse]
    simp
  · intro n hn
    rw [dash_closed, pinLevels_append, pinLevels_pulse]
    simp [hn]
  · intro a v hm
    rcases hm with hm | hm
    · rw [dot_closed, List.nil_append] at hm
      exact hmem _ a v hm
    · rw [dash_closed, List.nil_append] at hm
      exact hmem _ a v hm

/-- C9: for every sequence of dot and dash symbols emitted in order, the
recorder of pin 16 sees one pulse per symbol, of width 100 ms for a dot and
400 ms for a dash (1 ms being 1000 * 6 iterations), in the order of the
symbols, each preceded by no busy-wait; the pin is low at the end and no
busy-wait follows the last pulse.  The sequences of lines 43 to 46 and of
lines 50 to 51 give the widths 100, 400, 400, 400 and 100, 400. -/
theorem pulses_of_marks :
    (∀ syms : List Symbol, (∀ s ∈ syms, s ≠ Symbol.space) →
      record 16 (emitAll syms [])
          = { level := false, gap := 0, width := 0,
              pulses := syms.map (fun s => (0, pauseOf s * 1000 * 6)) }
        ∧ (record 16 (emitAll syms [])).pulses.length = syms.length
        ∧ (record 16 (emitAll syms [])).pulses.map (fun q => q.2 / (1000 * 6))
            = syms.map pauseOf)
      ∧ (record 16 (dash (dash (dash (dot []))))).pulses.map (fun q => q.2 / (1000 * 6))
          = [100, 400, 400, 400]
      ∧ (record 16 (dash (dash (dash (dot []))))).level = false
      ∧ (record 16 (dash (dot []))).pulses
          = [(0, 100 * 1000 * 6), (0, 400 * 1000 * 6)]
      ∧ (record 16 (dash (dot []))).gap = 0
      ∧ (record 16 (dash (dot []))).level = false := by
  have key : ∀ syms : List Symbol, (∀ s ∈ syms, s ≠ Symbol.space) →
      record 16 (emitAll syms [])
        = { level := false, gap := 0, width := 0,
            pulses := syms.map (fun s => (0, pauseOf s * 1000 * 6)) } := by
    intro syms hs
    unfold record
    rw [emitAll_eq, List.nil_append, recorder_marks syms _ hs rfl rfl rfl]
    simp
  have h4 : dash (dash (dash (dot [])))
      = emitAll [Symbol.dot, Symbol.dash, Symbol.dash, Symbol.dash] [] := by
    repeat rw [emitAll_cons]
    rw [emitAll_nil]
    simp only [emit]
  have h2 : dash (dot []) = emitAll [Symbol.dot, Symbol.dash] [] := by
    repeat rw [emitAll_cons]
    rw [emitAll_nil]
    simp only [emit]
  refine ⟨?_, ?_, ?_, ?_, ?_, ?_⟩
  · intro syms hs
    rw [key syms hs]
    refine ⟨rfl, by simp, ?_⟩
    simp only [List.map_map]
    apply List.map_congr_left
    intro s _
    show pauseOf s * 1000 * 6 / (1000 * 6) = pauseOf s
    omega
  · rw [h4, key _ (by decide)]
    decide
  · rw [h4, key _ (by decide)]
  · rw [h2, key _ (by decide)]
    decide
  · rw [h2, key _ (by decide)]
  · rw [h2, key _ (by decide)]

/-- C9 at the sequence dot, dash, dash, dash. -/
theorem pulses_of_marks_witness :
    (∀ s ∈ [Symbol.dot, Symbol.dash, Symbol.dash, Symbol.dash], s ≠ Symbol.space)
      ∧ record 16 (emitAll [Symbol.dot, Symbol.dash, Symbol.dash, Symbol.dash] [])
          = { level := false, gap := 0, width := 0,
              pulses := [(0, SHORT_PAUSE * 1000 * 6), (0, MEDIUM_PAUSE * 1000 * 6),
                (0, MEDIUM_PAUSE * 1000 * 6), (0, MEDIUM_PAUSE * 1000 * 6)] } :=
  ⟨by decide, (pulses_of_marks.1 _ (by decide)).1⟩

/-! ## Message sequencer -/

theorem jackie_symbols :
    List.intercalate [Symbol.space] (jackie.map morse)
      = [.dot, .dash, .dash, .dash, .space, .dot, .dash, .space,
         .dash, .dot, .dash, .dot, .space, .dash, .dot, .dash, .space,
         .dot, .dot, .space, .dot] := by
  decide

theorem main_closed (t : Trace) :
    main t = t ++ Effect.store GPIO_FSEL1 (1 <<< 18)
      :: ((List.intercalate [Symbol.space] (jackie.map morse)).map block).flatten := by
  have hv : (0b1 <<< 18) % WORD = 1 <<< 18 := by decide
  rw [main_eq_emitAll, ← jackie_symbols, emitAll_eq, store_eq, hv, List.append_assoc,
    List.singleton_append]

theorem mem_blocks (syms : List Symbol) (e : Effect)
    (he : e ∈ (syms.map block).flatten) :
    e = Effect.store GPIO_SET0 (1 <<< 16) ∨ e = Effect.nop
      ∨ e = Effect.store GPIO_CLR0 (1 <<< 16) := by
  rw [List.mem_flatten] at he
  obtain ⟨l, hl, hel⟩ := he
  rw [List.mem_map] at hl
  obtain ⟨s, _, hsl⟩ := hl
  subst hsl
  cases s with
  | dot =>
    rw [block_dot, List.mem_cons, List.mem_append, List.mem_singleton] at hel
    rcases hel with h | h | h
    · exact Or.inl h
    · exact Or.inr (Or.inl (List.eq_of_mem_replicate h))
    · exact Or.inr (Or.inr h)
  | dash =>
    rw [block_dash, List.mem_cons, List.mem_append, List.mem_singleton] at hel
    rcases hel with h | h | h
    · exact Or.inl h
    · exact Or.inr (Or.inl (List.eq_of_mem_replicate h))
    · exact Or.inr (Or.inr h)
  | space =>
    rw [block_space] at hel
    exact Or.inr (Or.inl (List.eq_of_mem_replicate hel))

theorem GPIO_FSEL1_ne : GPIO_FSEL1 ≠ GPIO_SET0 ∧ GPIO_FSEL1 ≠ GPIO_CLR0 := by decide

/-- C3: the first effect of `main` is the store of `1 << 18` to the
function-select register at `GPIO_BASE + 0x04`; 18 is `(16 - 10) * 3` and the
value has bit 18 set and every other bit clear, so bits 18 to 20 read 001; the
set register is at `GPIO_BASE + 0x1C`, the clear register at
`GPIO_BASE + 0x1C + 0x0C = GPIO_BASE + 0x28`, and every store of `main` to
one of these two has the value `1 << 16`, whose only bit is bit 16. -/
theorem register_map :
    (∀ t, ∃ rest, main t = t ++ Effect.store (GPIO_BASE + 0x04) (1 <<< 18) :: rest)
      ∧ 18 = (16 - 10) * 3
      ∧ (∀ n, Nat.testBit (1 <<< 18) n = decide (n = 18))
      ∧ ((1 <<< 18) >>> 18) % 8 = 1
      ∧ GPIO_BASE = 0xFE200000
      ∧ GPIO_FSEL1 = GPIO_BASE + 0x04
      ∧ GPIO_SET0 = GPIO_BASE + 0x1C
      ∧ GPIO_CLR0 = GPIO_BASE + 0x1C + 0x0C
      ∧ GPIO_CLR0 = GPIO_BASE + 0x28
      ∧ (∀ a v, Effect.store a v ∈ main [] → a = GPIO_SET0 ∨ a = GPIO_CLR0 → v = 1 <<< 16)
      ∧ (∃ u w, main [] = u ++ Effect.store GPIO_SET0 (1 <<< 16) :: w)
      ∧ (∃ u w, main [] = u ++ Effect.store GPIO_CLR0 (1 <<< 16) :: w)
      ∧ ∀ n, Nat.testBit (1 <<< 16) n = decide (n = 16) := by
  have hf : GPIO_BASE + 0x04 = GPIO_FSEL1 := by decide
  refine ⟨?_, by decide, ?_, by decide, by decide, by decide, by decide, by decide, by decide,
    ?_, ?_, ?_, testBit_mask⟩
  · intro t
    exact ⟨_, by rw [hf]; exact main_closed t⟩
  · intro n
    rw [Nat.one_shiftLeft, Nat.testBit_two_pow]
    by_cases h : n = 18
    · subst h; rfl
    · have h2 : ¬ (18 = n) := fun e => h e.symm
      simp [h, h2]
  · intro a v hm ha
    rw [main_closed, List.nil_append, List.mem_cons] at hm
    rcases hm with hm | hm
    · injection hm with h1 h2
      rcases ha with ha | ha
      · exact absurd (h1.symm.trans ha) GPIO_FSEL1_ne.1
      · exact absurd (h1.symm.trans ha) GPIO_FSEL1_ne.2
    · rcases mem_blocks _ _ hm with h | h | h
      · injection h with h1 h2
      · exact absurd h (by simp)
      · injection h with h1 h2
  · refine ⟨[Effect.store GPIO_FSEL1 (1 <<< 18)], ?_⟩
    rw [main_closed, jackie_symbols, List.nil_append, flatten_cons_mark _ (by decide)]
    exact ⟨_, rfl⟩
  · refine ⟨Effect.store GPIO_FSEL1 (1 <<< 18) :: Effect.store GPIO_SET0 (1 <<< 16)
      :: List.replicate (pauseOf Symbol.dot * 1000 * 6) Effect.nop, ?_⟩
    rw [main_closed, jackie_symbols, List.nil_append, flatten_cons_mark _ (by decide)]
    exact ⟨_, rfl⟩

/-- C4: for a list of symbols, `main` is the pin configuration followed by
the emitter calls of that list exactly when the list is the Morse code of
j, a, c, k, i, e joined by one `space` between consecutive letters; split at
its spaces that list gives the six letter codes .--- .- -.-. -.- .. . and
none of them is empty or contains a `space`, so that no `space` comes first
or last. -/
theorem main_spells_jackie :
    (∀ (t : Trace) (syms : List Symbol),
      main t = emitAll syms (store GPIO_FSEL1 (0b1 <<< 18) t)
        ↔ syms = List.intercalate [Symbol.space] (jackie.map morse))
      ∧ splitAtSpaces (List.intercalate [Symbol.space] (jackie.map morse)) = jackie.map morse
      ∧ jackie.map morse
          = [[.dot, .dash, .dash, .dash], [.dot, .dash], [.dash, .dot, .dash, .dot],
             [.dash, .dot, .dash], [.dot, .dot], [.dot]]
      ∧ (∀ g ∈ jackie.map morse, g ≠ [] ∧ Symbol.space ∉ g)
      ∧ (List.intercalate [Symbol.space] (jackie.map morse)).count Symbol.space = 5 := by
  refine ⟨?_, by decide, by decide, by decide, by decide⟩
  intro t syms
  constructor
  · intro h
    rw [main_eq_emitAll] at h
    rw [jackie_symbols]
    exact (emitAll_inj _ _ _ h).symm
  · intro h
    rw [h, jackie_symbols]
    exact main_eq_emitAll t

/-- C8: the effects of `main` start with the store to the function-select
register, and none of the effects after it is a store to that register: the
register is written exactly once, before every busy-wait step and before
every store to the set or clear register. -/
theorem configure_once_first :
    (∀ t, main t = t ++ main [])
      ∧ ∃ rest, main [] = Effect.store GPIO_FSEL1 (1 <<< 18) :: rest
          ∧ (∀ e ∈ rest, writesTo GPIO_FSEL1 e = false)
          ∧ (∀ e ∈ rest, e = Effect.nop ∨ writesTo GPIO_SET0 e = true
              ∨ writesTo GPIO_CLR0 e = true)
          ∧ (main []).countP (writesTo GPIO_FSEL1) = 1
          ∧ (main []).head? = some (Effect.store GPIO_FSEL1 (1 <<< 18))
          ∧ Effect.nop ∈ rest
          ∧ Effect.store GPIO_SET0 (1 <<< 16) ∈ rest
          ∧ Effect.store GPIO_CLR0 (1 <<< 16) ∈ rest := by
  have hnil := main_closed []
  rw [List.nil_append] at hnil
  have hno : ∀ e ∈ ((List.intercalate [Symbol.space] (jackie.map morse)).map block).flatten,
      writesTo GPIO_FSEL1 e = false := by
    intro e he
    rcases mem_blocks _ _ he with h | h | h
    · rw [h]
      simp only [writesTo, decide_eq_false_iff_not]
      exact fun e => GPIO_FSEL1_ne.1 e.symm
    · rw [h]; rfl
    · rw [h]
      simp only [writesTo, decide_eq_false_iff_not]
      exact fun e => GPIO_FSEL1_ne.2 e.symm
  refine ⟨?_, _, hnil, hno, ?_, ?_, ?_, ?_, ?_, ?_⟩
  · intro t
    rw [hnil, main_closed]
  · intro e he
    rcases mem_blocks _ _ he with h | h | h
    · rw [h]; simp [writesTo]
    · exact Or.inl h
    · rw [h]; simp [writesTo]
  · rw [hnil, List.countP_cons_of_pos]
    · rw [List.countP_eq_zero.mpr]
      intro e he
      rw [hno e he]
      simp
    · simp [writesTo]
  · rw [hnil]
    rfl
  · rw [jackie_symbols, flatten_cons_mark _ (by decide)]
    have hk : pauseOf Symbol.dot * 1000 * 6 = (pauseOf Symbol.dot * 1000 * 6 - 1) + 1 := by
      decide
    rw [hk, List.replicate_succ]
    simp
  · rw [jackie_symbols, flatten_cons_mark _ (by decide)]
    simp
  · rw [jackie_symbols, flatten_cons_mark _ (by decide)]
    simp

end Blinky
